import Mathlib

/-!
Shallow embedding of the core of the `wtf` command-line tool: the correction
engine (src/corrections.rs), the shell-history parsers (src/history.rs) and
the user override-list operations (src/config.rs).

Rust strings (`&str`/`String`) are modelled as lists of Unicode scalar values
(`List Char`).  Byte-level operations of the source (`str::len`, byte slicing)
are modelled through the UTF-8 byte width of each character, so that the
byte-boundary panic that Rust slicing can raise is representable.  Fallible
code (including panics) returns `Except`.  The `f64` similarity scores are
modelled as rationals.
-/

deriving instance DecidableEq for Except

namespace Wtf

/-- Rust `&str`, as its sequence of Unicode scalar values. -/
abbrev RStr := List Char

/-- Embed a Lean string literal into the model type. -/
def str (s : String) : RStr := s.toList

/-- Rust `char::is_whitespace`: the Unicode White_Space property
(the 25 code points with that property). -/
def rustIsWhitespace (c : Char) : Bool :=
  let n := c.toNat
  (decide (0x09 ≤ n) && decide (n ≤ 0x0D)) || n == 0x20 || n == 0x85 || n == 0xA0 ||
  n == 0x1680 || (decide (0x2000 ≤ n) && decide (n ≤ 0x200A)) || n == 0x2028 ||
  n == 0x2029 || n == 0x202F || n == 0x205F || n == 0x3000

/-- Rust `str::len`: the length in UTF-8 bytes. -/
def utf8Len (s : RStr) : Nat := (s.map Char.utf8Size).sum

/-- Accumulator-passing loop of `str::split_whitespace`
(`acc` is the current token, reversed). -/
def splitWsAux : RStr → RStr → List RStr
  | [], acc => if acc.isEmpty then [] else [acc.reverse]
  | c :: rest, acc =>
    if rustIsWhitespace c then
      if acc.isEmpty then splitWsAux rest []
      else acc.reverse :: splitWsAux rest []
    else splitWsAux rest (c :: acc)

/-- Rust `str::split_whitespace().collect()` (corrections.rs line 15). -/
def splitWhitespace (s : RStr) : List RStr := splitWsAux s []

/-- Rust `str::trim_start` on Unicode whitespace. -/
def rustTrimStart (s : RStr) : RStr := s.dropWhile rustIsWhitespace

/-- Rust `str::trim_end` on Unicode whitespace. -/
def rustTrimEnd (s : RStr) : RStr := (s.reverse.dropWhile rustIsWhitespace).reverse

/-- Rust `str::trim`. -/
def rustTrim (s : RStr) : RStr := rustTrimEnd (rustTrimStart s)

/-- Accumulator-passing loop of `str::lines` (`acc` is the current line,
reversed).  A `\n` ends a line, and a `\r` immediately before the `\n` is
stripped; a final line without a trailing `\n` is kept as-is. -/
def rlinesAux : RStr → RStr → List RStr
  | [], acc => if acc.isEmpty then [] else [acc.reverse]
  | c :: rest, acc =>
    if c = '\n' then
      (if acc.head? = some '\r' then acc.tail.reverse else acc.reverse) :: rlinesAux rest []
    else rlinesAux rest (c :: acc)

/-- Rust `str::lines().collect()`. -/
def rlines (s : RStr) : List RStr := rlinesAux s []

/-! ### History parsing (src/history.rs) -/

/-- The regex `^: \d+:\d+;(.+)$` of `parse_bash_zsh_history`
(history.rs line 116): on a match, the capture group — the necessarily
non-empty text after the `;` — is returned.  (`\d` is modelled as an ASCII
digit; the greedy `\d+`/`(.+)` structure of the regex is mirrored by
`takeWhile`/`dropWhile` and "rest of the line".) -/
def extHistStrip (line : RStr) : Option RStr :=
  match line with
  | ':' :: ' ' :: rest =>
    (let d1 := rest.takeWhile Char.isDigit
     let r1 := rest.dropWhile Char.isDigit
     if d1.isEmpty then none else
     match r1 with
     | ':' :: r2 =>
       (let d2 := r2.takeWhile Char.isDigit
        let r3 := r2.dropWhile Char.isDigit
        if d2.isEmpty then none else
        match r3 with
        | ';' :: cmdText => if cmdText.isEmpty then none else some cmdText
        | _ => none)
     | _ => none)
  | _ => none

/-- The validity test of the history scan loops (history.rs lines 125 and 140):
`!cmd.starts_with("wtf") && !cmd.is_empty()`. -/
def validCmd (cmd : RStr) : Bool := !(str "wtf").isPrefixOf cmd && !cmd.isEmpty

/-- The candidate a Bash/Zsh history line yields (history.rs lines 119-123):
the regex capture when the line matches, otherwise the trimmed raw line. -/
def bashCandidate (line : RStr) : RStr :=
  match extHistStrip line with
  | some c => c
  | none => rustTrim line

/-- The `for line in lines.iter().rev()` loop of `parse_bash_zsh_history`
(history.rs lines 118-130), on the already-reversed line list. -/
def bashScan : List RStr → Except RStr RStr
  | [] => .error (str "No valid command found in history")
  | line :: rest =>
    (let cmd := bashCandidate line
     if validCmd cmd then .ok cmd else bashScan rest)

/-- history.rs lines 109-131. -/
def parse_bash_zsh_history (content : RStr) : Except RStr RStr :=
  let lines := rlines content
  if lines.isEmpty then .error (str "Empty history")
  else bashScan lines.reverse

/-- The regex `- cmd: (.+)` of `parse_fish_history` (history.rs line 134):
unanchored, so the leftmost position where `- cmd: ` is followed by at least
one character matches, and the greedy `(.+)` captures the rest of the line. -/
def fishCmdCapture (l : RStr) : Option RStr :=
  match l with
  | [] => none
  | _ :: rest =>
    if (str "- cmd: ").isPrefixOf l ∧ ¬ (l.drop 7).isEmpty then some (l.drop 7)
    else fishCmdCapture rest

/-- The `for line in lines.iter().rev()` loop of `parse_fish_history`
(history.rs lines 137-144), on the already-reversed line list. -/
def fishScan : List RStr → Except RStr RStr
  | [] => .error (str "No valid command found in history")
  | line :: rest =>
    match fishCmdCapture line with
    | some c0 =>
      (let cmd := rustTrim c0
       if validCmd cmd then .ok cmd else fishScan rest)
    | none => fishScan rest

/-- history.rs lines 133-147. -/
def parse_fish_history (content : RStr) : Except RStr RStr :=
  fishScan (rlines content).reverse

/-- history.rs lines 99-107. -/
def parse_powershell_history (content : RStr) : Except RStr RStr :=
  let lines := rlines content
  if lines.length < 2 then .error (str "Not enough history")
  else .ok (rustTrim (lines.getD (lines.length - 2) []))

/-- history.rs lines 6-12. -/
inductive ShellType where
  | PowerShell
  | Bash
  | Zsh
  | Fish
deriving DecidableEq

/-- The remediation message of history.rs lines 33-38 (Rust `\`-newline
escapes swallow the newline and the following indentation). -/
def bashStaleMsg : RStr :=
  str "History file is not up to date. Add this to your ~/.bashrc:\nshopt -s histappend\nPROMPT_COMMAND=\x27history -a\x27"

/-- Rust `Result::is_err`. -/
def exceptIsErr : Except RStr RStr → Bool
  | .error _ => true
  | .ok _ => false

/-- The pure core of `get_last_command` (history.rs lines 26-41): dispatch on
the inferred shell type, then — `if result.is_err() && matches!(shell_type,
ShellType::Bash)` — replace the failure by the stale-history remediation
error.  Locating and reading the history file (lines 14-24) is I/O and stays
outside the model; `content` is the text the file read produced and `shell`
the type `detect_shell_type` inferred. -/
def get_last_command_model (shell : ShellType) (content : RStr) : Except RStr RStr :=
  let result :=
    match shell with
    | .PowerShell => parse_powershell_history content
    | .Bash | .Zsh => parse_bash_zsh_history content
    | .Fish => parse_fish_history content
  if exceptIsErr result = true ∧ shell = .Bash then .error bashStaleMsg else result

/-! ### Correction engine (src/corrections.rs) -/

/-- corrections.rs lines 5-10 (the `f64` confidence is modelled as `ℚ`). -/
structure Correction where
  fixed_cmd : RStr
  reason : RStr
  confidence : ℚ
deriving DecidableEq

/-- The descending-confidence comparison of corrections.rs line 121
(`b.confidence.partial_cmp(&a.confidence)`): `a` comes no later than `b`
when `b.confidence ≤ a.confidence`. -/
def confGE (a b : Correction) : Prop := b.confidence ≤ a.confidence

instance : DecidableRel confGE :=
  fun a b => inferInstanceAs (Decidable (b.confidence ≤ a.confidence))

instance : IsTotal Correction confGE :=
  ⟨fun a b => le_total b.confidence a.confidence⟩

instance : IsTrans Correction confGE :=
  ⟨fun _ _ _ h1 h2 => le_trans h2 h1⟩

/-- One iteration of the user-override loop (corrections.rs lines 28-57),
for a single `(wrong, correct)` rule (`rule.1`/`rule.2`): the candidates it
pushes.  The Rust locals `fixed` and `remaining = &cmd[wrong.len()..]` are
inlined; `cmd.len() > wrong.len()` is the byte-length comparison. -/
def overrideStep (cmd command args : RStr) (rule : RStr × RStr) : List Correction :=
  if cmd = rule.1 ∨ command = rule.1 then
    [⟨if cmd = rule.1 then rule.2
      else if args.isEmpty then rule.2
      else rule.2 ++ ' ' :: args,
      str "custom fix", 1⟩]
  else if rule.1.isPrefixOf cmd ∧ utf8Len rule.1 < utf8Len cmd then
    if (cmd.drop rule.1.length).head? = some ' ' then
      [⟨rule.2 ++ cmd.drop rule.1.length, str "custom fix", 1⟩]
    else []
  else []

/-- The user-override loop of corrections.rs lines 28-57 (pass 1):
every rule's candidates are pushed, in rule order. -/
def overridePass (cmd command args : RStr) : List (RStr × RStr) → List Correction
  | [] => []
  | rule :: rest => overrideStep cmd command args rule ++ overridePass cmd command args rest

/-- An entry of the built-in typo table: `(typo_pattern, (fix, reason))`. -/
abbrev FixEntry := RStr × RStr × RStr

/-- The `matched` computation of corrections.rs lines 62-71 for one table
entry.  The one-byte slice `&cmd[typo_pattern.len()..typo_pattern.len() + 1]`
on line 67 panics — modelled as `.error` — when the byte one past the pattern
is not a character boundary, i.e. when the character right after the pattern
is wider than one UTF-8 byte; when it is one byte wide, the slice is compared
with `" "`. -/
def builtinMatched (cmd command pat : RStr) : Except RStr Bool :=
  if command = pat ∨ cmd = pat then .ok true
  else if pat.isPrefixOf cmd ∧ utf8Len pat < utf8Len cmd then
    match cmd.drop pat.length with
    | [] => .error (str "byte index out of bounds")
    | c :: _ =>
      if c.utf8Size = 1 then .ok (decide (c = ' '))
      else .error (str "byte index is not a char boundary")
  else .ok false

/-- The `fixed` computation of corrections.rs lines 74-84 for one table
entry. -/
def builtinFixed (cmd args pat fixText : RStr) : RStr :=
  if cmd = pat then fixText
  else if pat.isPrefixOf cmd then fixText ++ cmd.drop pat.length
  else if args.isEmpty then fixText
  else fixText ++ ' ' :: args

/-- One iteration of the built-in table loop (corrections.rs lines 61-94),
acting on the accumulated candidate vector: on a match, push the fixed
command unless a candidate with the identical `fixed_cmd` is already
present. -/
def builtinStep (cmd command args : RStr) (acc : List Correction) (entry : FixEntry) :
    Except RStr (List Correction) :=
  match builtinMatched cmd command entry.1 with
  | .error e => .error e
  | .ok true =>
    if acc.any (fun c => c.fixed_cmd == builtinFixed cmd args entry.1 entry.2.1) then .ok acc
    else .ok (acc ++ [⟨builtinFixed cmd args entry.1 entry.2.1, entry.2.2, 1⟩])
  | .ok false => .ok acc

/-- The built-in table loop of corrections.rs lines 60-95 (pass 2), threading
the candidate vector already filled by pass 1. -/
def builtinPass (cmd command args : RStr) : List FixEntry → List Correction →
    Except RStr (List Correction)
  | [], acc => .ok acc
  | entry :: rest, acc =>
    match builtinStep cmd command args acc entry with
    | .error err => .error err
    | .ok acc2 => builtinPass cmd command args rest acc2

/-- The acceptance threshold `0.85` of corrections.rs line 104, as an exact
rational (`mkRat` is used because it reduces in the kernel). -/
def fuzzyThreshold : ℚ := mkRat 85 100

/-- One iteration of the fuzzy-matching loop (corrections.rs lines 101-117)
for a single vocabulary entry.  `sim` stands for `strsim::jaro_winkler`, an
external library function, kept abstract (its `f64` result modelled as `ℚ`);
the Rust local `similarity = jaro_winkler(command, common_cmd)` is inlined. -/
def fuzzyStep (sim : RStr → RStr → ℚ) (command args common_cmd : RStr) : List Correction :=
  if fuzzyThreshold < sim command common_cmd ∧ sim command common_cmd < 1 then
    [⟨(if args.isEmpty then common_cmd else common_cmd ++ ' ' :: args),
      str "similar to \x27" ++ common_cmd ++ str "\x27", sim command common_cmd⟩]
  else []

/-- The fuzzy-matching loop of corrections.rs lines 97-118 (pass 3). -/
def fuzzyPass (sim : RStr → RStr → ℚ) (command args : RStr) : List RStr → List Correction
  | [] => []
  | v :: rest => fuzzyStep sim command args v ++ fuzzyPass sim command args rest

/-- The tail of `find_corrections` (corrections.rs lines 120-132): the stable
descending sort by confidence (Rust `sort_by` is stable; on a total order the
stable sort is unique, realised here by `List.insertionSort`), the truncation
to 5, and the empty-to-`None` conversion. -/
def postProcess (corrections : List Correction) : Option (List Correction) :=
  let sorted := List.insertionSort confGE corrections
  let final := if 5 < sorted.length then sorted.take 5 else sorted
  if final.isEmpty then none else some final

/-- corrections.rs lines 12-133.  The built-in typo table
(`get_common_fixes`), the common-command vocabulary (`get_common_commands`)
and the similarity function (`strsim::jaro_winkler`) are passed explicitly:
the first two live in src/commands.rs, which is not among the provided
sources, and the third is an external crate. -/
def find_corrections (sim : RStr → RStr → ℚ) (common_fixes : List FixEntry)
    (common_commands : List RStr) (cmd : RStr) (custom_typos : List (RStr × RStr)) :
    Except RStr (Option (List Correction)) :=
  match splitWhitespace cmd with
  | [] => .ok none
  | command :: restParts =>
    let args := List.intercalate (str " ") restParts
    match builtinPass cmd command args common_fixes (overridePass cmd command args custom_typos) with
    | .error e => .error e
    | .ok c2 =>
      .ok (postProcess (if c2.isEmpty then fuzzyPass sim command args common_commands else c2))

/-- Modelled from the spec: `get_common_fixes` lives in src/commands.rs,
which is missing from the provided sources.  The spec (§4.2, §6) describes it
only as "a static table of common command misspellings, each table entry
carrying its own canonical replacement and human-readable reason string", so
a representative non-empty table (consistent with the spec §8 examples
`gti status` and `git statuus`) is used for concrete evaluations. -/
def common_fixes_model : List FixEntry :=
  [(str "gti", (str "git", str "typo of git")),
   (str "sl", (str "ls", str "typo of ls"))]

/-- Modelled from the spec: `get_common_commands` lives in src/commands.rs,
which is missing from the provided sources.  The spec (§4.2, §6) describes it
only as "a fixed vocabulary of common command names"; a representative
vocabulary is used for concrete evaluations. -/
def common_commands_model : List RStr :=
  [str "git", str "ls", str "cargo"]

/-! ### User override list operations (src/config.rs) -/

/-- config.rs lines 60-66: `retain` the entries whose `wrong` differs, then
push the new pair. -/
def add_typo (wrong correct : RStr) (custom_typos : List (RStr × RStr)) :
    List (RStr × RStr) :=
  custom_typos.filter (fun p => p.1 != wrong) ++ [(wrong, correct)]

/-- config.rs lines 68-72: `retain` the entries whose `wrong` differs and
report whether the length shrank. -/
def remove_typo (wrong : RStr) (custom_typos : List (RStr × RStr)) :
    List (RStr × RStr) × Bool :=
  let kept := custom_typos.filter (fun p => p.1 != wrong)
  (kept, decide (kept.length < custom_typos.length))

/-- config.rs lines 74-79: push only when no entry with the same `wrong`
exists. -/
def add_from_builtin (wrong correct : RStr) (custom_typos : List (RStr × RStr)) :
    List (RStr × RStr) :=
  if custom_typos.any (fun p => p.1 == wrong) then custom_typos
  else custom_typos ++ [(wrong, correct)]

/-- The uniqueness invariant of the user override list (spec §3):
at most one entry per `wrong` value. -/
def NoDupKeys (l : List (RStr × RStr)) : Prop :=
  l.Pairwise (fun p q => p.1 ≠ q.1)

/-! ### Helper lemmas -/

theorem bool_eq_false_iff_not (b : Bool) (P : Prop) (h : b = true ↔ P) :
    b = false ↔ ¬ P := by
  cases b <;> simp_all

theorem validCmd_iff (cmd : RStr) :
    validCmd cmd = true ↔ ¬ (str "wtf") <+: cmd ∧ cmd ≠ [] := by
  unfold validCmd
  rw [Bool.and_eq_true, Bool.not_eq_true', Bool.not_eq_true']
  exact and_congr (bool_eq_false_iff_not _ _ List.isPrefixOf_iff_prefix)
    (bool_eq_false_iff_not _ _ List.isEmpty_iff)

theorem bashScan_ok (ls : List RStr) (s : RStr) (h : bashScan ls = .ok s) :
    validCmd s = true := by
  induction ls with
  | nil => simp [bashScan] at h
  | cons line rest ih =>
    by_cases hv : validCmd (bashCandidate line) = true
    · simp [bashScan, hv] at h
      rw [← h]; exact hv
    · simp [bashScan, hv] at h
      exact ih h

theorem bashScan_eq_find? (ls : List RStr) :
    bashScan ls =
      match ls.find? (fun l => validCmd (bashCandidate l)) with
      | some l => .ok (bashCandidate l)
      | none => .error (str "No valid command found in history") := by
  induction ls with
  | nil => rfl
  | cons line rest ih =>
    by_cases hv : validCmd (bashCandidate line) = true
    · simp [bashScan, List.find?_cons_of_pos, hv]
    · simp [bashScan, List.find?_cons_of_neg, hv, ih]

theorem parse_bash_zsh_ok (content s : RStr)
    (h : parse_bash_zsh_history content = .ok s) : validCmd s = true := by
  unfold parse_bash_zsh_history at h
  by_cases he : (rlines content).isEmpty = true
  · simp [he] at h
  · simp [he] at h
    exact bashScan_ok _ _ h

theorem fishScan_ok (ls : List RStr) (s : RStr) (h : fishScan ls = .ok s) :
    validCmd s = true := by
  induction ls with
  | nil => simp [fishScan] at h
  | cons line rest ih =>
    cases hc : fishCmdCapture line with
    | none =>
      simp [fishScan, hc] at h
      exact ih h
    | some c0 =>
      by_cases hv : validCmd (rustTrim c0) = true
      · simp [fishScan, hc, hv] at h
        rw [← h]; exact hv
      · simp [fishScan, hc, hv] at h
        exact ih h

theorem parse_fish_ok (content s : RStr)
    (h : parse_fish_history content = .ok s) : validCmd s = true :=
  fishScan_ok _ _ h

theorem takeWhile_append_stop (p : Char → Bool) :
    ∀ (l : List Char) (x : Char) (r : List Char), (∀ a ∈ l, p a = true) → p x = false →
      (l ++ x :: r).takeWhile p = l ∧ (l ++ x :: r).dropWhile p = x :: r
  | [], x, r, _, hx => by simp [hx]
  | a :: l, x, r, hl, hx => by
    have ha : p a = true := hl a (by simp)
    have ih := takeWhile_append_stop p l x r (fun b hb => hl b (by simp [hb])) hx
    simp [ha, ih.1, ih.2]

theorem extHistStrip_strips (d1 d2 c : RStr)
    (h1 : d1 ≠ []) (h2 : d2 ≠ []) (hd1 : ∀ a ∈ d1, a.isDigit = true)
    (hd2 : ∀ a ∈ d2, a.isDigit = true) (hc : c ≠ []) :
    extHistStrip (':' :: ' ' :: (d1 ++ ':' :: (d2 ++ ';' :: c))) = some c := by
  have t1 := takeWhile_append_stop Char.isDigit d1 ':' (d2 ++ ';' :: c) hd1 (by decide)
  have t2 := takeWhile_append_stop Char.isDigit d2 ';' c hd2 (by decide)
  simp [extHistStrip, t1.1, t1.2, t2.1, t2.2, List.isEmpty_iff, h1, h2, hc]

theorem utf8Len_append (a b : RStr) : utf8Len (a ++ b) = utf8Len a + utf8Len b := by
  simp [utf8Len]

theorem overrideStep_fields (cmd command args : RStr) (rule : RStr × RStr)
    (c : Correction) (hc : c ∈ overrideStep cmd command args rule) :
    c.reason = str "custom fix" ∧ c.confidence = 1 := by
  unfold overrideStep at hc
  split at hc
  · rw [List.mem_singleton] at hc
    subst hc; exact ⟨rfl, rfl⟩
  · split at hc
    · split at hc
      · rw [List.mem_singleton] at hc
        subst hc; exact ⟨rfl, rfl⟩
      · simp at hc
    · simp at hc

theorem overridePass_fields (cmd command args : RStr) (typos : List (RStr × RStr))
    (c : Correction) (hc : c ∈ overridePass cmd command args typos) :
    c.reason = str "custom fix" ∧ c.confidence = 1 := by
  induction typos with
  | nil => simp [overridePass] at hc
  | cons rule rest ih =>
    rw [overridePass, List.mem_append] at hc
    rcases hc with hc | hc
    · exact overrideStep_fields cmd command args rule c hc
    · exact ih hc

theorem builtinStep_ok_shape (cmd command args : RStr) (acc : List Correction)
    (entry : FixEntry) (out : List Correction)
    (h : builtinStep cmd command args acc entry = .ok out) :
    out = acc ∨ ∃ x, out = acc ++ [x] := by
  cases hm : builtinMatched cmd command entry.1 with
  | error e => simp [builtinStep, hm] at h
  | ok b =>
    cases b with
    | false =>
      simp [builtinStep, hm] at h
      exact .inl h.symm
    | true =>
      simp only [builtinStep, hm] at h
      split at h
      · simp at h
        exact .inl h.symm
      · simp at h
        exact .inr ⟨_, h.symm⟩

theorem builtinPass_append (cmd command args : RStr) (fixes : List FixEntry) :
    ∀ acc out : List Correction,
      builtinPass cmd command args fixes acc = .ok out → ∃ b, out = acc ++ b := by
  induction fixes with
  | nil =>
    intro acc out h
    simp [builtinPass] at h
    exact ⟨[], by simp [← h]⟩
  | cons e rest ih =>
    intro acc out h
    cases hs : builtinStep cmd command args acc e with
    | error err => simp [builtinPass, hs] at h
    | ok acc2 =>
      simp only [builtinPass, hs] at h
      obtain ⟨b2, hb2⟩ := ih acc2 out h
      rcases builtinStep_ok_shape cmd command args acc e acc2 hs with h1 | ⟨x, h1⟩
      · exact ⟨b2, by rw [hb2, h1]⟩
      · exact ⟨x :: b2, by rw [hb2, h1]; simp⟩

theorem filter_orderedInsert (q : ℚ) (a : Correction) (l : List Correction) :
    (l.orderedInsert confGE a).filter (fun c => c.confidence == q) =
      if a.confidence == q then a :: l.filter (fun c => c.confidence == q)
      else l.filter (fun c => c.confidence == q) := by
  induction l with
  | nil =>
    by_cases hpa : (a.confidence == q) = true
    · simp [List.filter, hpa]
    · simp [List.filter, hpa]
  | cons b tl ih =>
    by_cases hab : confGE a b
    · rw [List.orderedInsert_of_le confGE tl hab]
      by_cases hpa : (a.confidence == q) = true
      · simp [List.filter_cons, hpa]
      · simp [List.filter_cons, hpa]
    · have hoi : (b :: tl).orderedInsert confGE a = b :: tl.orderedInsert confGE a := by
        simp [List.orderedInsert, hab]
      rw [hoi]
      by_cases hpa : (a.confidence == q) = true
      · have haq : a.confidence = q := by simpa using hpa
        have hbq : (b.confidence == q) = false := by
          rw [beq_eq_false_iff_ne]
          intro hb
          exact hab (show b.confidence ≤ a.confidence by rw [hb, haq])
        simp [List.filter_cons, hbq, ih, hpa]
      · simp [List.filter_cons, ih, hpa]

theorem filter_insertionSort (q : ℚ) (l : List Correction) :
    (List.insertionSort confGE l).filter (fun c => c.confidence == q) =
      l.filter (fun c => c.confidence == q) := by
  induction l with
  | nil => rfl
  | cons a tl ih =>
    simp only [List.insertionSort]
    rw [filter_orderedInsert]
    by_cases hpa : (a.confidence == q) = true
    · simp [List.filter_cons, hpa, ih]
    · simp [List.filter_cons, hpa, ih]

theorem postProcess_some (cand l : List Correction) (h : postProcess cand = some l) :
    List.Sorted confGE l ∧ 1 ≤ l.length ∧ l.length ≤ 5 ∧
      l = (List.insertionSort confGE cand).take 5 ∧
      (5 < cand.length → l.length = 5) := by
  have hlencand : (List.insertionSort confGE cand).length = cand.length :=
    (List.perm_insertionSort confGE cand).length_eq
  have hsorted : List.Sorted confGE (List.insertionSort confGE cand) :=
    List.sorted_insertionSort confGE cand
  simp only [postProcess] at h
  by_cases hlen : 5 < (List.insertionSort confGE cand).length
  · rw [if_pos hlen] at h
    by_cases hemp : ((List.insertionSort confGE cand).take 5).isEmpty = true
    · rw [if_pos hemp] at h
      simp at h
    · rw [if_neg hemp] at h
      simp only [Option.some.injEq] at h
      subst h
      refine ⟨List.Pairwise.sublist (List.take_sublist 5 _) hsorted, ?_, ?_, rfl, ?_⟩
      · have : (List.insertionSort confGE cand).take 5 ≠ [] := by
          intro he
          rw [he] at hemp
          simp at hemp
        have := List.length_pos.mpr this
        omega
      · rw [List.length_take]
        omega
      · intro _
        rw [List.length_take]
        omega
  · rw [if_neg hlen] at h
    by_cases hemp : (List.insertionSort confGE cand).isEmpty = true
    · rw [if_pos hemp] at h
      simp at h
    · rw [if_neg hemp] at h
      simp only [Option.some.injEq] at h
      subst h
      have hne : List.insertionSort confGE cand ≠ [] := by
        intro he
        rw [he] at hemp
        simp at hemp
      have hpos := List.length_pos.mpr hne
      refine ⟨hsorted, by omega, by omega, ?_, by omega⟩
      rw [List.take_of_length_le (by omega)]

/-! ### Claim theorems: correction engine -/

/-- Claim C6: the override pass's per-rule behaviour — whole-string match yields
`correct` verbatim; first-token match with args yields `correct`, one space,
and the (re-joined) args; a prefix match (when neither exact form applies)
yields `correct` followed by the exact remainder of `cmd` after `wrong`,
separator and trailing text untouched; and every override candidate carries
reason `custom fix` and confidence 1. -/
theorem c6_override_semantics (cmd command args wrong correct : RStr)
    (custom_typos : List (RStr × RStr)) :
    (cmd = wrong →
      overrideStep cmd command args (wrong, correct) =
        [⟨correct, str "custom fix", 1⟩]) ∧
    (cmd ≠ wrong → command = wrong → args ≠ [] →
      overrideStep cmd command args (wrong, correct) =
        [⟨correct ++ ' ' :: args, str "custom fix", 1⟩]) ∧
    (∀ t : RStr, cmd = wrong ++ ' ' :: t → command ≠ wrong →
      overrideStep cmd command args (wrong, correct) =
        [⟨correct ++ ' ' :: t, str "custom fix", 1⟩]) ∧
    (∀ c ∈ overridePass cmd command args custom_typos,
      c.reason = str "custom fix" ∧ c.confidence = 1) := by
  refine ⟨fun h => ?_, fun h1 h2 h3 => ?_, fun t ht hcommand => ?_,
    overridePass_fields cmd command args custom_typos⟩
  · unfold overrideStep
    dsimp only
    rw [if_pos (Or.inl h), if_pos h]
  · unfold overrideStep
    dsimp only
    rw [if_pos (Or.inr h2), if_neg h1, if_neg (by simpa [List.isEmpty_iff] using h3)]
  · have hne : cmd ≠ wrong := by
      rw [ht]
      intro he
      have := congrArg List.length he
      simp at this
    have hsp : utf8Len (' ' :: t) = 1 + utf8Len t := by
      have h1 : Char.utf8Size ' ' = 1 := rfl
      simp [utf8Len, h1]
    unfold overrideStep
    dsimp only
    rw [if_neg (by tauto), if_pos ?side, ht]
    case side =>
      constructor
      · exact List.isPrefixOf_iff_prefix.mpr ⟨' ' :: t, ht.symm⟩
      · rw [ht, utf8Len_append, hsp]
        omega
    rw [List.drop_left]
    exact if_pos rfl

/-- Claim C6 witness: a multi-token override rule hit as a prefix keeps the raw
remainder of the command. -/
theorem c6_override_semantics_witness :
    overrideStep (str "gco x -b f") (str "gco") (str "x -b f")
      (str "gco x", str "git checkout x") =
      [⟨str "git checkout x" ++ ' ' :: str "-b f", str "custom fix", 1⟩] :=
  (c6_override_semantics (str "gco x -b f") (str "gco") (str "x -b f")
    (str "gco x") (str "git checkout x") []).2.2.1 (str "-b f") (by decide) (by decide)

/-- Claim C4: in the fuzzy pass a candidate is emitted for a vocabulary entry
exactly when the similarity between the first token and the entry lies
strictly between 0.85 and 1.0; the candidate's confidence is that similarity
and its fix is the entry followed by the original args when present. -/
theorem c4_fuzzy_threshold (sim : RStr → RStr → ℚ) (vocab : List RStr)
    (command args : RStr) (c : Correction) :
    c ∈ fuzzyPass sim command args vocab ↔
      ∃ e ∈ vocab, fuzzyThreshold < sim command e ∧ sim command e < 1 ∧
        c = ⟨(if args.isEmpty then e else e ++ ' ' :: args),
             str "similar to \x27" ++ e ++ str "\x27", sim command e⟩ := by
  induction vocab with
  | nil => simp [fuzzyPass]
  | cons v rest ih =>
    rw [fuzzyPass, List.mem_append, ih]
    constructor
    · rintro (hstep | ⟨e, he, h1, h2, h3⟩)
      · unfold fuzzyStep at hstep
        split at hstep
        · rename_i hcond
          rw [List.mem_singleton] at hstep
          exact ⟨v, List.mem_cons_self v rest, hcond.1, hcond.2, hstep⟩
        · simp at hstep
      · exact ⟨e, List.mem_cons_of_mem v he, h1, h2, h3⟩
    · rintro ⟨e, he, h1, h2, h3⟩
      rcases List.mem_cons.mp he with he | he
      · subst he
        left
        unfold fuzzyStep
        rw [if_pos ⟨h1, h2⟩, h3, List.mem_singleton]
      · exact Or.inr ⟨e, he, h1, h2, h3⟩

/-- Claim C4 witness: a similarity of 0.9 between `gti` and the vocabulary entry
`git` emits the candidate with that confidence. -/
theorem c4_fuzzy_threshold_witness :
    (⟨str "git", str "similar to \x27git\x27", mkRat 9 10⟩ : Correction) ∈
      fuzzyPass (fun _ _ => mkRat 9 10) (str "gti") [] [str "git"] :=
  (c4_fuzzy_threshold (fun _ _ => mkRat 9 10) [str "git"] (str "gti") []
    ⟨str "git", str "similar to \x27git\x27", mkRat 9 10⟩).mpr
    ⟨str "git", by decide, by decide, by decide, by decide⟩

/-- Claim C1 counterexample: with the override rule `gti → got` and the built-in
entry `gti → git`, the command `gti` produces an override candidate *and* a
built-in candidate — the built-in pass is not skipped when the override pass
yields candidates, refuting the strict first-non-empty-pass-wins cascade
between passes 1 and 2. -/
theorem c1_counterexample :
    overridePass (str "gti") (str "gti") [] [(str "gti", str "got")] =
      [⟨str "got", str "custom fix", 1⟩] ∧
    find_corrections (fun _ _ => 0) common_fixes_model common_commands_model (str "gti")
      [(str "gti", str "got")] =
      .ok (some [⟨str "got", str "custom fix", 1⟩,
                 ⟨str "git", str "typo of git", 1⟩]) ∧
    (⟨str "git", str "typo of git", 1⟩ : Correction) ∉
      overridePass (str "gti") (str "gti") [] [(str "gti", str "got")] := by
  refine ⟨by decide, by decide, by decide⟩

/-- Claim C1 (amended): the override pass and the built-in pass both always run —
override candidates are always kept, and the built-in pass appends its (text-
deduplicated) candidates after them even when the override pass was
non-empty; only the approximate pass is gated: it is consulted exactly when
the two exact passes together produced zero candidates. -/
theorem c1_amended (sim : RStr → RStr → ℚ) (common_fixes : List FixEntry)
    (common_commands : List RStr) (cmd : RStr) (custom_typos : List (RStr × RStr))
    (command : RStr) (restParts : List RStr) (c2 : List Correction)
    (hsplit : splitWhitespace cmd = command :: restParts)
    (hok : builtinPass cmd command (List.intercalate (str " ") restParts) common_fixes
      (overridePass cmd command (List.intercalate (str " ") restParts) custom_typos) =
      .ok c2) :
    ∃ b, c2 =
        overridePass cmd command (List.intercalate (str " ") restParts) custom_typos ++ b ∧
      find_corrections sim common_fixes common_commands cmd custom_typos =
        .ok (postProcess
          (if overridePass cmd command (List.intercalate (str " ") restParts) custom_typos
                = [] ∧ b = [] then
            fuzzyPass sim command (List.intercalate (str " ") restParts) common_commands
          else
            overridePass cmd command (List.intercalate (str " ") restParts) custom_typos
              ++ b)) := by
  obtain ⟨b, hb⟩ := builtinPass_append cmd command
    (List.intercalate (str " ") restParts) common_fixes _ c2 hok
  refine ⟨b, hb, ?_⟩
  rw [find_corrections, hsplit]
  simp only
  rw [hok]
  simp only
  congr 1
  congr 1
  rw [hb]
  by_cases hemp : overridePass cmd command (List.intercalate (str " ") restParts)
      custom_typos = [] ∧ b = []
  · rw [if_pos ?c1, if_pos hemp]
    case c1 => simp [hemp.1, hemp.2]
  · rw [if_neg ?c2, if_neg hemp]
    case c2 =>
      simp only [List.isEmpty_iff, List.append_eq_nil]
      exact hemp

/-- Claim C1 amended-claim witness: the trivial instantiation with no overrides and
an empty table. -/
theorem c1_amended_witness :
    ∃ b, ([] : List Correction) =
        overridePass (str "ls") (str "ls") (List.intercalate (str " ") []) [] ++ b ∧
      find_corrections (fun _ _ => 0) [] [] (str "ls") [] =
        .ok (postProcess
          (if overridePass (str "ls") (str "ls") (List.intercalate (str " ") []) [] = []
                ∧ b = [] then
            fuzzyPass (fun _ _ => 0) (str "ls") (List.intercalate (str " ") []) []
          else
            overridePass (str "ls") (str "ls") (List.intercalate (str " ") []) [] ++ b)) :=
  c1_amended (fun _ _ => 0) [] [] (str "ls") [] (str "ls") [] [] (by decide) (by decide)

/-- Claim C2: evaluating `find_corrections` at a command made of a built-in typo
pattern followed directly by a two-byte character reaches the byte slice
`&cmd[typo_pattern.len()..typo_pattern.len() + 1]` of corrections.rs line 67
off a character boundary: the call panics instead of returning normally. -/
theorem c2_byte_boundary_panic :
    find_corrections (fun _ _ => 0) common_fixes_model common_commands_model
      (str "gtié") [] = .error (str "byte index is not a char boundary") := by
  decide

/-- Claim C5: whenever `find_corrections` returns a list, it is sorted by
confidence in descending order, holds between 1 and 5 entries, and it is the
5-entry prefix of the stable descending sort of the actual discovery list
`cand` — the candidate vector after the three passes, pinned by the
`hsplit`/`hok`/`hcand` hypotheses exactly as `find_corrections` builds it —
so more than 5 discovered candidates are truncated to exactly 5, and
stability (for every confidence value the sorted list restricted to that
value equals the discovery list restricted to it) means equal-confidence
entries keep their discovery order. -/
theorem c5_output_sorted_capped (sim : RStr → RStr → ℚ) (common_fixes : List FixEntry)
    (common_commands : List RStr) (cmd : RStr) (custom_typos : List (RStr × RStr))
    (command : RStr) (restParts : List RStr) (c2 cand l : List Correction)
    (hsplit : splitWhitespace cmd = command :: restParts)
    (hok : builtinPass cmd command (List.intercalate (str " ") restParts) common_fixes
      (overridePass cmd command (List.intercalate (str " ") restParts) custom_typos) =
      .ok c2)
    (hcand : cand =
      if c2.isEmpty = true then
        fuzzyPass sim command (List.intercalate (str " ") restParts) common_commands
      else c2)
    (h : find_corrections sim common_fixes common_commands cmd custom_typos =
      .ok (some l)) :
    List.Sorted confGE l ∧ 1 ≤ l.length ∧ l.length ≤ 5 ∧
      l = (List.insertionSort confGE cand).take 5 ∧
      (5 < cand.length → l.length = 5) ∧
      (∀ q : ℚ, (List.insertionSort confGE cand).filter (fun c => c.confidence == q) =
        cand.filter (fun c => c.confidence == q)) := by
  unfold find_corrections at h
  rw [hsplit] at h
  simp only at h
  rw [hok] at h
  simp only [Except.ok.injEq] at h
  rw [← hcand] at h
  obtain ⟨hs, h1, h5, htake, hcap⟩ := postProcess_some cand l h
  exact ⟨hs, h1, h5, htake, hcap, fun q => filter_insertionSort q cand⟩

/-- Claim C5 witness: six equal-confidence override matches on `g` — the
actual discovery list of that `find_corrections` run — are capped to exactly
five, in discovery order. -/
theorem c5_output_sorted_capped_witness :
    List.Sorted confGE
        [⟨str "a", str "custom fix", 1⟩, ⟨str "b", str "custom fix", 1⟩,
         ⟨str "c", str "custom fix", 1⟩, ⟨str "d", str "custom fix", 1⟩,
         ⟨str "e", str "custom fix", 1⟩] ∧
      1 ≤ ([⟨str "a", str "custom fix", 1⟩, ⟨str "b", str "custom fix", 1⟩,
         ⟨str "c", str "custom fix", 1⟩, ⟨str "d", str "custom fix", 1⟩,
         ⟨str "e", str "custom fix", 1⟩] : List Correction).length ∧
      ([⟨str "a", str "custom fix", 1⟩, ⟨str "b", str "custom fix", 1⟩,
         ⟨str "c", str "custom fix", 1⟩, ⟨str "d", str "custom fix", 1⟩,
         ⟨str "e", str "custom fix", 1⟩] : List Correction).length ≤ 5 ∧
      ([⟨str "a", str "custom fix", 1⟩, ⟨str "b", str "custom fix", 1⟩,
         ⟨str "c", str "custom fix", 1⟩, ⟨str "d", str "custom fix", 1⟩,
         ⟨str "e", str "custom fix", 1⟩] : List Correction) =
        (List.insertionSort confGE
          [⟨str "a", str "custom fix", 1⟩, ⟨str "b", str "custom fix", 1⟩,
           ⟨str "c", str "custom fix", 1⟩, ⟨str "d", str "custom fix", 1⟩,
           ⟨str "e", str "custom fix", 1⟩, ⟨str "f", str "custom fix", 1⟩]).take 5 ∧
      (5 < ([⟨str "a", str "custom fix", 1⟩, ⟨str "b", str "custom fix", 1⟩,
         ⟨str "c", str "custom fix", 1⟩, ⟨str "d", str "custom fix", 1⟩,
         ⟨str "e", str "custom fix", 1⟩, ⟨str "f", str "custom fix", 1⟩] :
           List Correction).length →
        ([⟨str "a", str "custom fix", 1⟩, ⟨str "b", str "custom fix", 1⟩,
          ⟨str "c", str "custom fix", 1⟩, ⟨str "d", str "custom fix", 1⟩,
          ⟨str "e", str "custom fix", 1⟩] : List Correction).length = 5) ∧
      (∀ q : ℚ,
        (List.insertionSort confGE
          [⟨str "a", str "custom fix", 1⟩, ⟨str "b", str "custom fix", 1⟩,
           ⟨str "c", str "custom fix", 1⟩, ⟨str "d", str "custom fix", 1⟩,
           ⟨str "e", str "custom fix", 1⟩, ⟨str "f", str "custom fix", 1⟩]).filter
            (fun c => c.confidence == q) =
        ([⟨str "a", str "custom fix", 1⟩, ⟨str "b", str "custom fix", 1⟩,
          ⟨str "c", str "custom fix", 1⟩, ⟨str "d", str "custom fix", 1⟩,
          ⟨str "e", str "custom fix", 1⟩, ⟨str "f", str "custom fix", 1⟩] :
            List Correction).filter (fun c => c.confidence == q)) :=
  c5_output_sorted_capped (fun _ _ => 0) [] [] (str "g")
    [(str "g", str "a"), (str "g", str "b"), (str "g", str "c"),
     (str "g", str "d"), (str "g", str "e"), (str "g", str "f")]
    (str "g") []
    [⟨str "a", str "custom fix", 1⟩, ⟨str "b", str "custom fix", 1⟩,
     ⟨str "c", str "custom fix", 1⟩, ⟨str "d", str "custom fix", 1⟩,
     ⟨str "e", str "custom fix", 1⟩, ⟨str "f", str "custom fix", 1⟩]
    [⟨str "a", str "custom fix", 1⟩, ⟨str "b", str "custom fix", 1⟩,
     ⟨str "c", str "custom fix", 1⟩, ⟨str "d", str "custom fix", 1⟩,
     ⟨str "e", str "custom fix", 1⟩, ⟨str "f", str "custom fix", 1⟩]
    [⟨str "a", str "custom fix", 1⟩, ⟨str "b", str "custom fix", 1⟩,
     ⟨str "c", str "custom fix", 1⟩, ⟨str "d", str "custom fix", 1⟩,
     ⟨str "e", str "custom fix", 1⟩]
    (by decide) (by decide) (by decide) (by decide)

/-! ### Claim theorems: user override list -/

/-- Claim C9: the override-list operations preserve the at-most-one-entry-per-wrong
invariant; `add_typo` drops every entry with the same `wrong` and appends the
new pair at the end; `remove_typo` removes every entry with the given `wrong`
and reports `true` exactly when at least one existed; and `add_from_builtin`
leaves the list unchanged when the `wrong` is already present. -/
theorem c9_override_list_ops (w c : RStr) (l : List (RStr × RStr)) :
    (NoDupKeys l → NoDupKeys (add_typo w c l) ∧ NoDupKeys (remove_typo w l).1 ∧
      NoDupKeys (add_from_builtin w c l)) ∧
    (add_typo w c l).getLast? = some (w, c) ∧
    (∀ p : RStr × RStr, p ∈ add_typo w c l ↔ (p.1 ≠ w ∧ p ∈ l) ∨ p = (w, c)) ∧
    ((remove_typo w l).2 = true ↔ ∃ d, (w, d) ∈ l) ∧
    (∀ d, (w, d) ∉ (remove_typo w l).1) ∧
    ((∃ d, (w, d) ∈ l) → add_from_builtin w c l = l) := by
  have hmemf : ∀ p : RStr × RStr, p ∈ l.filter (fun p => p.1 != w) ↔ p.1 ≠ w ∧ p ∈ l := by
    intro p
    rw [List.mem_filter]
    constructor
    · rintro ⟨hp, hne⟩
      exact ⟨by simpa using hne, hp⟩
    · rintro ⟨hne, hp⟩
      exact ⟨hp, by simpa using hne⟩
  have hany : (l.any (fun p => p.1 == w)) = true ↔ ∃ d, (w, d) ∈ l := by
    rw [List.any_eq_true]
    constructor
    · rintro ⟨p, hp, he⟩
      have : p.1 = w := by simpa using he
      exact ⟨p.2, by rw [← this]; exact hp⟩
    · rintro ⟨d, hd⟩
      exact ⟨(w, d), hd, by simp⟩
  refine ⟨fun hnd => ⟨?_, List.Pairwise.filter _ hnd, ?_⟩, ?_, fun p => ?_, ?_, fun d => ?_,
    fun hd => ?_⟩
  · unfold add_typo
    rw [NoDupKeys, List.pairwise_append]
    refine ⟨List.Pairwise.filter _ hnd, List.pairwise_singleton _ _, ?_⟩
    intro p hp b hb
    rw [List.mem_singleton] at hb
    subst hb
    exact ((hmemf p).mp hp).1
  · unfold add_from_builtin
    split
    · exact hnd
    · rename_i hnotany
      rw [NoDupKeys, List.pairwise_append]
      refine ⟨hnd, List.pairwise_singleton _ _, ?_⟩
      intro p hp b hb
      rw [List.mem_singleton] at hb
      subst hb
      intro he
      exact hnotany (List.any_eq_true.mpr ⟨p, hp, by simpa using he⟩)
  · exact List.getLast?_concat _
  · unfold add_typo
    rw [List.mem_append, List.mem_singleton, hmemf p]
  · unfold remove_typo
    simp only [decide_eq_true_eq]
    rw [List.length_filter_lt_length_iff_exists]
    constructor
    · rintro ⟨p, hp, hne⟩
      have : p.1 = w := by simpa using hne
      exact ⟨p.2, by rw [← this]; exact hp⟩
    · rintro ⟨d, hd⟩
      exact ⟨(w, d), hd, by simp⟩
  · intro hmem
    have := (hmemf (w, d)).mp hmem
    exact this.1 rfl
  · unfold add_from_builtin
    rw [if_pos (hany.mpr hd)]

/-- Claim C9 witness: inserting a duplicate `wrong` overwrites and keeps the
invariant. -/
theorem c9_override_list_ops_witness :
    NoDupKeys (add_typo (str "a") (str "b") [(str "a", str "x")]) ∧
      NoDupKeys (remove_typo (str "a") [(str "a", str "x")]).1 ∧
      NoDupKeys (add_from_builtin (str "a") (str "b") [(str "a", str "x")]) :=
  (c9_override_list_ops (str "a") (str "b") [(str "a", str "x")]).1
    (by simp [NoDupKeys])

/-! ### Claim theorems: history -/

/-- Claim C7: Bash/Zsh history parsing scans the lines from most recent to oldest;
each line's candidate is the regex capture when the extended-history form
`: <digits>:<digits>;<command>` matches (the command stripped of that
timestamp), otherwise the raw trimmed line; the first candidate that is
non-empty and does not start with `wtf` is returned; an empty file gives the
empty-history error, and the no-valid-command error is returned when no
candidate qualifies. -/
theorem c7_bash_zsh_scan (content : RStr) :
    (rlines content = [] → parse_bash_zsh_history content = .error (str "Empty history")) ∧
    (rlines content ≠ [] →
      parse_bash_zsh_history content =
        match (rlines content).reverse.find? (fun l => validCmd (bashCandidate l)) with
        | some l => .ok (bashCandidate l)
        | none => .error (str "No valid command found in history")) ∧
    (∀ l, validCmd l = true ↔ ¬ (str "wtf") <+: l ∧ l ≠ []) ∧
    (∀ d1 d2 c : RStr, d1 ≠ [] → d2 ≠ [] → (∀ a ∈ d1, a.isDigit = true) →
      (∀ a ∈ d2, a.isDigit = true) → c ≠ [] →
      bashCandidate (':' :: ' ' :: (d1 ++ ':' :: (d2 ++ ';' :: c))) = c) ∧
    (∀ line, extHistStrip line = none → bashCandidate line = rustTrim line) := by
  refine ⟨fun he => ?_, fun hne => ?_, validCmd_iff, fun d1 d2 c h1 h2 hd1 hd2 hc => ?_, ?_⟩
  · simp [parse_bash_zsh_history, he]
  · have : (rlines content).isEmpty = false := by
      simpa [List.isEmpty_iff] using hne
    simp [parse_bash_zsh_history, this, bashScan_eq_find?]
  · simp [bashCandidate, extHistStrip_strips d1 d2 c h1 h2 hd1 hd2 hc]
  · intro line hnone
    simp [bashCandidate, hnone]

/-- Claim C7 witness: the spec §8 Bash-style example, evaluated through the claim
theorem. -/
theorem c7_bash_zsh_scan_witness :
    parse_bash_zsh_history (str ": 100:0;ls -la\n: 101:0;wtf\n: 102:0;git statuus") =
      .ok (str "git statuus") := by
  rw [(c7_bash_zsh_scan (str ": 100:0;ls -la\n: 101:0;wtf\n: 102:0;git statuus")).2.1
    (by decide)]
  decide

/-- Claim C8: for the Bash shell type every parse failure is replaced by the
distinguished stale-history error carrying the `shopt -s histappend` /
`PROMPT_COMMAND` remediation message, successful parses pass through, and for
every other shell type the parser's result — error or not — is returned
unchanged. -/
theorem c8_bash_stale_wrap (content : RStr) :
    (∀ e, parse_bash_zsh_history content = .error e →
      get_last_command_model .Bash content = .error bashStaleMsg) ∧
    (∀ s, parse_bash_zsh_history content = .ok s →
      get_last_command_model .Bash content = .ok s) ∧
    get_last_command_model .Zsh content = parse_bash_zsh_history content ∧
    get_last_command_model .Fish content = parse_fish_history content ∧
    get_last_command_model .PowerShell content = parse_powershell_history content := by
  refine ⟨fun e he => ?_, fun s hs => ?_, ?_, ?_, ?_⟩
  · simp [get_last_command_model, he, exceptIsErr]
  · simp [get_last_command_model, hs, exceptIsErr]
  · cases hp : parse_bash_zsh_history content <;>
      simp [get_last_command_model, hp, exceptIsErr]
  · cases hp : parse_fish_history content <;>
      simp [get_last_command_model, hp, exceptIsErr]
  · cases hp : parse_powershell_history content <;>
      simp [get_last_command_model, hp, exceptIsErr]

/-- Claim C8 witness: an empty Bash history file surfaces the remediation message. -/
theorem c8_bash_stale_wrap_witness :
    get_last_command_model .Bash [] = .error bashStaleMsg :=
  (c8_bash_stale_wrap []).1 (str "Empty history") (by decide)

/-- Claim C3 counterexample: the claim quantifies over every shell type including
PowerShell, but the PowerShell parser returns the second-to-last line
unconditionally, so a `wtf` invocation can be returned. -/
theorem c3_counterexample :
    get_last_command_model .PowerShell (str "ls\nwtf status\nwtf") =
      .ok (str "wtf status") ∧
    (str "wtf") <+: (str "wtf status") := by
  constructor
  · decide
  · exact ⟨str " status", by decide⟩

/-- Claim C3 (amended): for the Bash, Zsh and Fish shell types — but not for
PowerShell — a successfully returned command is non-empty and does not begin
with `wtf`. -/
theorem c3_amended (shell : ShellType) (content s : RStr)
    (hshell : shell ≠ .PowerShell)
    (h : get_last_command_model shell content = .ok s) :
    ¬ (str "wtf") <+: s ∧ s ≠ [] := by
  cases shell with
  | PowerShell => exact absurd rfl hshell
  | Bash =>
    cases hp : parse_bash_zsh_history content with
    | error e => simp [get_last_command_model, hp, exceptIsErr] at h
    | ok t =>
      simp [get_last_command_model, hp, exceptIsErr] at h
      subst h
      exact (validCmd_iff t).mp (parse_bash_zsh_ok content t hp)
  | Zsh =>
    cases hp : parse_bash_zsh_history content with
    | error e => simp [get_last_command_model, hp, exceptIsErr] at h
    | ok t =>
      simp [get_last_command_model, hp, exceptIsErr] at h
      subst h
      exact (validCmd_iff t).mp (parse_bash_zsh_ok content t hp)
  | Fish =>
    cases hp : parse_fish_history content with
    | error e => simp [get_last_command_model, hp, exceptIsErr] at h
    | ok t =>
      simp [get_last_command_model, hp, exceptIsErr] at h
      subst h
      exact (validCmd_iff t).mp (parse_fish_ok content t hp)

/-- Claim C3 witness: a Zsh history whose last line is an ordinary command. -/
theorem c3_amended_witness :
    ¬ (str "wtf") <+: (str "ls") ∧ (str "ls") ≠ [] :=
  c3_amended .Zsh (str "ls") (str "ls") (by decide) (by decide)

/-- Claim C10: in Bash/Zsh and Fish history parsing the self-invocation skip is a
plain three-character string-prefix test, so no returned command ever starts
with the characters `wtf` — `wtfoo` included. -/
theorem c10_wtf_skip (content s : RStr) :
    (parse_bash_zsh_history content = .ok s → ¬ (str "wtf") <+: s) ∧
    (parse_fish_history content = .ok s → ¬ (str "wtf") <+: s) := by
  constructor
  · intro h
    exact ((validCmd_iff s).mp (parse_bash_zsh_ok content s h)).1
  · intro h
    exact ((validCmd_iff s).mp (parse_fish_ok content s h)).1

/-- Claim C10 witness: a history whose most recent line is the unrelated command
`wtfoo` skips it and returns the older `ls` — which indeed does not start
with `wtf`. -/
theorem c10_wtf_skip_witness : ¬ (str "wtf") <+: (str "ls") :=
  (c10_wtf_skip (str "ls\nwtfoo") (str "ls")).1 (by decide)

end Wtf
